import Mathlib

/-!
Verification of the link-rewriting core of `mirror_wiki.py`
(GitlabToGithubWikiMirroring).

The program applies two regex substitution rules to every markdown file of
a directory tree:

* `LINK_INLINE_RE` rewrites inline links `[label](../path#anchor)` by
  stripping the leading run of `../` / `./` segments;
* `REF_LINK_RE` rewrites whole reference-definition lines
  `[label]: ../path#anchor "title"`, stripping the prefix and the title.

Both regexes are embedded here as specialised backtracking matchers over
`List Char` that follow Python `re` semantics (leftmost match, greedy /
lazy quantifier priority, `re.MULTILINE` for the reference rule).  The
surrounding directory walk, the selective write-back, the decoding
fallback and the CLI argument handling are embedded afterwards.
-/

set_option autoImplicit false

namespace MirrorWiki

/-- Python `\s` under `re.UNICODE` (equivalently `str.isspace` for the
characters that occur here): ASCII whitespace plus the Unicode space
characters. -/
def isPySpace (c : Char) : Bool :=
  c = ' ' || c = '\t' || c = '\n' || c = '\x0d' || c = '\x0b' || c = '\x0c'
  || c = '\x1c' || c = '\x1d' || c = '\x1e' || c = '\x1f' || c = '\x85' || c = '\xa0'
  || c = '\u1680' || ('\u2000' ≤ c && c ≤ '\u200a') || c = '\u2028' || c = '\u2029'
  || c = '\u202f' || c = '\u205f' || c = '\u3000'

/-- Python `str.strip()`: drop whitespace from both ends. -/
def pyStrip (cs : List Char) : List Char :=
  ((cs.dropWhile isPySpace).reverse.dropWhile isPySpace).reverse

/-- Does the text begin with an ascending (`../`) or current-directory
(`./`) segment?  This is the entry test of `(?:\.\./|\.\/)+`. -/
def startsSeg : List Char → Bool
  | '.' :: '.' :: '/' :: _ => true
  | '.' :: '/' :: _ => true
  | _ => false

/-- All ways the greedy repetition `(?:\.\./|\.\/)+` can consume a prefix
of the text, as the list of remaining suffixes in backtracking priority
order (most segments consumed first, `../` preferred over `./`).  An empty
result means the repetition cannot match even once. -/
def prefixAlts : List Char → List (List Char)
  | '.' :: '.' :: '/' :: rest => prefixAlts rest ++ [rest]
  | '.' :: '/' :: rest => prefixAlts rest ++ [rest]
  | _ => []

/-- Tail of `LINK_INLINE_RE` after the page-path capture:
`(\#[^\)\s]+)?\s*\)`.  Returns the captured anchor (possibly empty) and
the suffix after the closing parenthesis.  The optional anchor group is
greedy: the anchored alternative is tried first. -/
def inlineAnchor (ds : List Char) : Option (List Char × List Char) :=
  match ds with
  | '#' :: ds1 =>
    let run := ds1.takeWhile (fun c => c ≠ ')' && !isPySpace c)
    if run = [] then none
    else
      match (ds1.drop run.length).dropWhile isPySpace with
      | ')' :: ds4 => some ('#' :: run, ds4)
      | _ => none
  | _ => none

def inlineClose (ds : List Char) : Option (List Char × List Char) :=
  match ds.dropWhile isPySpace with
  | ')' :: ds4 => some ([], ds4)
  | _ => none

def restInline (ds : List Char) : Option (List Char × List Char) :=
  match inlineAnchor ds with
  | some r => some r
  | none => inlineClose ds

/-- The lazy tail `[^\)\#]*?` of the page-path capture: extend the tail
one character at a time, preferring the shortest tail whose continuation
`(\#[^\)\s]+)?\s*\)` succeeds.  Returns (tail, anchor, suffix after the
match). -/
def tryTail : List Char → Option (List Char × List Char × List Char)
  | [] =>
    match restInline [] with
    | some (anchor, after) => some ([], anchor, after)
    | none => none
  | c :: cs2 =>
    match restInline (c :: cs2) with
    | some (anchor, after) => some ([], anchor, after)
    | none =>
      if c ≠ ')' ∧ c ≠ '#' then
        match tryTail cs2 with
        | some (tl, a, af) => some (c :: tl, a, af)
        | none => none
      else none

/-- Try the candidate resumption points of the prefix repetition in
priority order; for each, match `\s*([^\)\#\s][^\)\#]*?)(\#[^\)\s]+)?\s*\)`.
Returns (label, raw path capture, anchor, suffix after the match). -/
def tryPrefixCands (label : List Char) :
    List (List Char) → Option (List Char × List Char × List Char × List Char)
  | [] => none
  | cand :: more =>
    match (match cand.dropWhile isPySpace with
           | c0 :: cs7 =>
             if c0 ≠ ')' ∧ c0 ≠ '#' ∧ isPySpace c0 = false then
               match tryTail cs7 with
               | some (tl, anchor, after) => some (label, c0 :: tl, anchor, after)
               | none => none
             else none
           | [] => none) with
    | some r => some r
    | none => tryPrefixCands label more

/-- Match `LINK_INLINE_RE` at the start of `cs` (the scan position).
Returns the captures (label, raw path, anchor) and the suffix after the
matched span, or `none` when the pattern does not match here. -/
def matchInlineAt (cs : List Char) : Option (List Char × List Char × List Char × List Char) :=
  match cs with
  | '[' :: cs1 =>
    let label := cs1.takeWhile (· ≠ ']')
    if label = [] then none
    else
      match cs1.drop label.length with
      | ']' :: '(' :: cs3 => tryPrefixCands label (prefixAlts (cs3.dropWhile isPySpace))
      | _ => none
  | _ => none

/-- `_replace_inline_match`: build `[label](path#anchor)` with the path
capture stripped. -/
def replaceInline (label path anchor : List Char) : List Char :=
  '[' :: (label ++ ']' :: '(' :: (pyStrip path ++ anchor ++ [')']))

/-- Scan loop of `LINK_INLINE_RE.subn`: try a match at every position,
replace and resume after each matched span, and count replacements.  The
fuel argument (always at least `length + 1`) only serves termination; a
match always consumes at least one character. -/
def inlineRunAux : Nat → List Char → List Char × Nat
  | 0, cs => (cs, 0)
  | _ + 1, [] => ([], 0)
  | fuel + 1, c :: rest =>
    match matchInlineAt (c :: rest) with
    | some (label, path, anchor, after) =>
      let r := inlineRunAux fuel after
      (replaceInline label path anchor ++ r.1, r.2 + 1)
    | none =>
      let r := inlineRunAux fuel rest
      (c :: r.1, r.2)

/-- `LINK_INLINE_RE.subn(_replace_inline_match, cs)`. -/
def inlineSubn (cs : List Char) : List Char × Nat :=
  inlineRunAux (cs.length + 1) cs

/-- The trailing `\s*$` of `REF_LINK_RE` under `re.MULTILINE`: consume
whitespace greedily as long as `$` (end of text, or just before a
newline) can still hold at the stopping point, preferring the latest
stopping point.  Returns (consumed whitespace, suffix after the match),
or `none` when `$` cannot be reached. -/
def consumeEnd : List Char → Option (List Char × List Char)
  | [] => some ([], [])
  | c :: cs =>
    if isPySpace c then
      match consumeEnd cs with
      | some (con, af) => some (c :: con, af)
      | none => if c = '\n' then some ([], c :: cs) else none
    else none

/-- Was the last character consumed a newline?  (Decides whether the scan
resumes at a line start, i.e. whether `^` holds at the resumption point.) -/
def endsNL (con : List Char) : Bool :=
  match con.reverse with
  | '\n' :: _ => true
  | _ => false

/-- Closing part of the optional title `.+["\']` followed by `\s*$`:
`line` is the run of non-newline characters after the opening quote and
`rest0` the remainder.  Try the closing-quote position `k` (characters
`0..k-1` being the greedy `.+`), then `k-1`, and so on down to `1`. -/
def titleTry (line rest0 : List Char) : Nat → Option (Bool × List Char)
  | 0 => none
  | n + 1 =>
    match line.drop (n + 1) with
    | q :: tail1 =>
      if q = '"' ∨ q = '\'' then
        match consumeEnd (tail1 ++ rest0) with
        | some (con, af) => some (endsNL con, af)
        | none => titleTry line rest0 n
      else titleTry line rest0 n
    | [] => titleTry line rest0 n

/-- Body of the title after the opening quote: the greedy `.+` cannot
cross a newline, so split at the first newline and search the closing
quote from the right. -/
def titleBody (ts : List Char) : Option (Bool × List Char) :=
  let line := ts.takeWhile (· ≠ '\n')
  titleTry line (ts.drop line.length) line.length

/-- The optional title group `(?:\s+["\'].+["\'])?` (with its `\s*$`
continuation): at least one whitespace character, an opening quote of
either kind, then `titleBody`. -/
def tryTitle (ds : List Char) : Option (Bool × List Char) :=
  let w := ds.takeWhile isPySpace
  if w = [] then none
  else
    match ds.drop w.length with
    | q :: ts => if q = '"' ∨ q = '\'' then titleBody ts else none
    | [] => none

/-- `(?:\s+["\'].+["\'])?\s*$`: the optional group is greedy, so the
titled alternative is tried before the bare line end. -/
def titleEnd (ds : List Char) : Option (Bool × List Char) :=
  match tryTitle ds with
  | some r => some r
  | none =>
    match consumeEnd ds with
    | some (con, af) => some (endsNL con, af)
    | none => none

/-- Tail of `REF_LINK_RE` after the path capture:
`(\#[^\s]+)?(?:\s+["\'].+["\'])?\s*$`.  Returns (anchor, resume-at-line-start
flag, suffix after the match). -/
def refRest (ds : List Char) : Option (List Char × Bool × List Char) :=
  match ds with
  | '#' :: ds1 =>
    let run := ds1.takeWhile (fun c => !isPySpace c)
    if run = [] then none
    else
      match titleEnd (ds1.drop run.length) with
      | some (nl, af) => some ('#' :: run, nl, af)
      | none => none
  | _ => (titleEnd ds).map fun r => ([], r.1, r.2)

/-- Candidate resumption points of the prefix repetition for the
reference rule, each continued with `\s*([^\s#][^\s#]*)` and `refRest`. -/
def refCands (label : List Char) :
    List (List Char) → Option (List Char × List Char × List Char × Bool × List Char)
  | [] => none
  | cand :: more =>
    match (let cs6 := cand.dropWhile isPySpace
           let path := cs6.takeWhile (fun c => !isPySpace c && c ≠ '#')
           if path = [] then none
           else
             match refRest (cs6.drop path.length) with
             | some (anchor, nl, af) => some (label, path, anchor, nl, af)
             | none => none) with
    | some r => some r
    | none => refCands label more

/-- Match `REF_LINK_RE` at the start of `cs`; only called when the scan
position is a line start (`^` under `re.MULTILINE`).  Returns the
captures (label, raw path, anchor), the resume-at-line-start flag, and
the suffix after the matched span. -/
def matchRefAt (cs : List Char) : Option (List Char × List Char × List Char × Bool × List Char) :=
  match cs.dropWhile isPySpace with
  | '[' :: cs1 =>
    let label := cs1.takeWhile (· ≠ ']')
    if label = [] then none
    else
      match cs1.drop label.length with
      | ']' :: ':' :: cs3 => refCands label (prefixAlts (cs3.dropWhile isPySpace))
      | _ => none
  | _ => none

/-- `_replace_ref_match`: build `[label]: path#anchor` (the title, when
present, is dropped). -/
def replaceRef (label path anchor : List Char) : List Char :=
  '[' :: (label ++ ']' :: ':' :: ' ' :: (pyStrip path ++ anchor))

/-- Scan loop of `REF_LINK_RE.subn`: the Boolean tracks whether the
current position is a line start (position 0 or just after a newline),
where alone the `^`-anchored pattern may match. -/
def refRunAux : Nat → Bool → List Char → List Char × Nat
  | 0, _, cs => (cs, 0)
  | _ + 1, _, [] => ([], 0)
  | fuel + 1, atStart, c :: rest =>
    match (if atStart then matchRefAt (c :: rest) else none) with
    | some (label, path, anchor, nl, after) =>
      let r := refRunAux fuel nl after
      (replaceRef label path anchor ++ r.1, r.2 + 1)
    | none =>
      let r := refRunAux fuel (c = '\n') rest
      (c :: r.1, r.2)

/-- `REF_LINK_RE.subn(_replace_ref_match, cs)`. -/
def refSubn (cs : List Char) : List Char × Nat :=
  refRunAux (cs.length + 1) true cs

/-- The whole per-document rewrite of `convert_gitlab_wiki_links_in_dir`:
the inline rule, then the reference rule on its output, with the combined
replacement count `n1 + n2`. -/
def rewriteContent (cs : List Char) : List Char × Nat :=
  let a := inlineSubn cs
  let b := refSubn a.1
  (b.1, a.2 + b.2)

/-- One `../` or `./` segment of the prefix repetition (`true` for the
ascending segment `../`, `false` for the current-directory segment `./`). -/
def segsJoin : List Bool → List Char
  | [] => []
  | true :: ss => '.' :: '.' :: '/' :: segsJoin ss
  | false :: ss => '.' :: '/' :: segsJoin ss

/-- A file of the scanned tree: its name and its decoded text content.
The directory walk of `convert_gitlab_wiki_links_in_dir` is abstracted as
the sequence of files it visits. -/
structure WikiFile where
  name : List Char
  content : List Char
  deriving DecidableEq, Repr

/-- `filename.lower().endswith((".md", ".markdown"))`. -/
def isMarkdownName (name : List Char) : Bool :=
  let l := name.map Char.toLower
  ".md".toList.isSuffixOf l || ".markdown".toList.isSuffixOf l

/-- Per-file body of the walk loop: markdown files are rewritten and
written back exactly when the combined replacement count is positive;
returns (resulting file, increment of `files_changed`, increment of
`total_replacements`). -/
def processFile (f : WikiFile) : WikiFile × Nat × Nat :=
  if isMarkdownName f.name then
    let r := rewriteContent f.content
    if 0 < r.2 then ({ f with content := r.1 }, 1, r.2) else (f, 0, 0)
  else (f, 0, 0)

/-- `convert_gitlab_wiki_links_in_dir`: fold `processFile` over the
visited files, returning the resulting tree together with
`(files_changed, total_replacements)`. -/
def convert_gitlab_wiki_links_in_dir (files : List WikiFile) : List WikiFile × Nat × Nat :=
  match files with
  | [] => ([], 0, 0)
  | f :: fs =>
    let p := processFile f
    let r := convert_gitlab_wiki_links_in_dir fs
    (p.1 :: r.1, p.2.1 + r.2.1, p.2.2 + r.2.2)

/-- Exceptions the read path can raise: the decoding failure of the
primary UTF-8 read, or any other I/O error (permission denied, ...). -/
inductive PyExc where
  | unicodeDecodeError
  | osError
  deriving DecidableEq, Repr

/-- Outcomes of the two possible reads of one file: what
`open(filepath, encoding="utf-8").read()` and
`open(filepath, encoding="latin1").read()` would each produce. -/
structure ReadEnv where
  utf8Result : Except PyExc (List Char)
  latin1Result : Except PyExc (List Char)

/-- The read step of the walk loop:
`try: open(..., encoding="utf-8") ... except Exception: open(..., encoding="latin1") ...`.
The `except Exception` arm catches every exception of the primary read
and retries with latin-1; the retry itself is unprotected, so its outcome
(value or exception) is what the caller sees. -/
def readWikiFile (env : ReadEnv) : Except PyExc (List Char) :=
  match env.utf8Result with
  | .ok c => .ok c
  | .error _ => env.latin1Result

/-- Outcome of the command-line entry point: print usage and exit, or run
the mirroring with the parsed arguments. -/
inductive MainAction where
  | usage
  | run (srcRepo dstRepo : String) (token : Option String)
  deriving DecidableEq, Repr

/-- The `__main__` block: `sys.argv` has the program name at index 0;
fewer than two user arguments print usage and exit 1, otherwise the
mirroring runs with `sys.argv[1]`, `sys.argv[2]` and the optional
`sys.argv[3]`. -/
def mainEntry (argv : List String) : MainAction :=
  if argv.length < 3 then .usage
  else .run (argv.getD 1 "") (argv.getD 2 "") (argv.get? 3)

/-- Exit status of the entry point: `sys.exit(1)` on missing arguments,
otherwise the process continues (no exit at argument parsing). -/
def exitCodeOf : MainAction → Option Nat
  | .usage => some 1
  | .run _ _ _ => none

/-- The first element of `D`, when there is one, falsifies `p`. -/
def headNotP (p : Char → Bool) : List Char → Prop
  | [] => True
  | c :: _ => p c = false

/-- Hypothesis bundle for an anchor capture: absent, or `#` followed by a
nonempty run of characters legal inside `[^\)\s]+`. -/
def AnchorOk (A : List Char) : Prop :=
  A = [] ∨ ∃ S, A = '#' :: S ∧ S ≠ [] ∧ ∀ c ∈ S, c ≠ ')' ∧ isPySpace c = false

/-- Hypothesis bundle for an anchor capture of the reference rule:
absent, or `#` followed by a nonempty run of non-whitespace characters. -/
def RefAnchorOk (A : List Char) : Prop :=
  A = [] ∨ ∃ S, A = '#' :: S ∧ S ≠ [] ∧ ∀ c ∈ S, isPySpace c = false

/-! ### Generic list helpers -/

theorem takeWhile_all (p : Char → Bool) (L : List Char) (h : ∀ x ∈ L, p x = true) :
    L.takeWhile p = L := by
  induction L with
  | nil => rfl
  | cons c L ih =>
    rw [List.takeWhile_cons, h c (by simp), if_pos rfl,
      ih (fun x hx => h x (by simp [hx]))]

theorem takeWhile_exact (p : Char → Bool) (L D : List Char)
    (hL : ∀ x ∈ L, p x = true) (hD : headNotP p D) :
    (L ++ D).takeWhile p = L := by
  induction L with
  | nil =>
    cases D with
    | nil => rfl
    | cons c cs =>
      simp only [List.nil_append, List.takeWhile_cons]
      rw [headNotP] at hD
      simp [hD]
  | cons a L ih =>
    simp [List.cons_append, List.takeWhile_cons, hL a (by simp),
      ih (fun x hx => hL x (by simp [hx]))]

theorem dropWhile_all (p : Char → Bool) (L : List Char) (h : ∀ x ∈ L, p x = true) :
    L.dropWhile p = [] := by
  induction L with
  | nil => rfl
  | cons c L ih =>
    rw [List.dropWhile_cons, h c (by simp), if_pos rfl,
      ih (fun x hx => h x (by simp [hx]))]

theorem dropWhile_exact (p : Char → Bool) (L D : List Char)
    (hL : ∀ x ∈ L, p x = true) (hD : headNotP p D) :
    (L ++ D).dropWhile p = D := by
  induction L with
  | nil =>
    cases D with
    | nil => rfl
    | cons c cs =>
      simp only [List.nil_append, List.dropWhile_cons]
      rw [headNotP] at hD
      simp [hD]
  | cons a L ih =>
    simp [List.cons_append, List.dropWhile_cons, hL a (by simp),
      ih (fun x hx => hL x (by simp [hx]))]

theorem dropWhile_eq_self (p : Char → Bool) (D : List Char) (hD : headNotP p D) :
    D.dropWhile p = D := by
  cases D with
  | nil => rfl
  | cons c cs =>
    rw [headNotP] at hD
    simp [List.dropWhile_cons, hD]

theorem headNotP_ws_append (p : Char → Bool) (W : List Char) (c : Char) (rest : List Char)
    (hW : ∀ x ∈ W, isPySpace x = true)
    (hws : ∀ x, isPySpace x = true → p x = false) (hc : p c = false) :
    headNotP p (W ++ c :: rest) := by
  cases W with
  | nil => exact hc
  | cons w W2 => exact hws w (hW w (by simp))

/-! ### Lemmas about the prefix repetition -/

theorem prefixAlts_eq_nil (T : List Char) (h : startsSeg T = false) :
    prefixAlts T = [] := by
  rw [prefixAlts.eq_def]
  split
  · simp [startsSeg] at h
  · simp [startsSeg] at h
  · rfl

theorem prefixAlts_join : ∀ (segs : List Bool) (T : List Char), segs ≠ [] →
    startsSeg T = false → ∃ l, prefixAlts (segsJoin segs ++ T) = T :: l
  | [], _, h, _ => absurd rfl h
  | [b], T, _, hT => by
    cases b <;>
      simp [segsJoin, prefixAlts, prefixAlts_eq_nil T hT]
  | b :: b2 :: ss, T, _, hT => by
    obtain ⟨l, hl⟩ := prefixAlts_join (b2 :: ss) T (by simp) hT
    cases b <;> simp [segsJoin, prefixAlts, hl]

/-! ### The inline rule on a well-formed link -/

theorem headNotP_cons (p : Char → Bool) (c : Char) (cs : List Char) (h : p c = false) :
    headNotP p (c :: cs) := h

theorem isPySpace_hash : isPySpace '#' = false := by decide

theorem isPySpace_close : isPySpace ')' = false := by decide

theorem ws_ne_of (w : Char) (c : Char) (hw : isPySpace w = true) (hc : isPySpace c = false) :
    w ≠ c := by
  rintro rfl
  rw [hw] at hc
  exact Bool.noConfusion hc

theorem inlineAnchor_anchor (S W3 rest : List Char) (hS0 : S ≠ [])
    (hS : ∀ c ∈ S, c ≠ ')' ∧ isPySpace c = false)
    (hW : ∀ c ∈ W3, isPySpace c = true) :
    inlineAnchor ('#' :: (S ++ (W3 ++ ')' :: rest))) = some ('#' :: S, rest) := by
  have hrun : (S ++ (W3 ++ ')' :: rest)).takeWhile (fun c => c ≠ ')' && !isPySpace c) = S := by
    refine takeWhile_exact _ S _ (fun x hx => ?_) ?_
    · have h := hS x hx
      simp [h.1, h.2]
    · exact headNotP_ws_append _ W3 ')' rest hW (fun x hx => by simp [hx]) (by simp)
  have hdrop : (S ++ (W3 ++ ')' :: rest)).drop S.length = W3 ++ ')' :: rest :=
    List.drop_left S _
  have hdw : (W3 ++ ')' :: rest).dropWhile isPySpace = ')' :: rest :=
    dropWhile_exact isPySpace W3 (')' :: rest) hW (headNotP_cons _ _ _ isPySpace_close)
  simp only [inlineAnchor]
  rw [hrun, if_neg hS0, hdrop, hdw]
  rfl

theorem inlineAnchor_cons_none (x : Char) (X : List Char) (hx : x ≠ '#') :
    inlineAnchor (x :: X) = none := by
  rw [inlineAnchor.eq_def]
  split
  · rename_i ds1 hcons
    injection hcons with h1 _
    exact absurd h1 hx
  · rfl

theorem inlineClose_plain (W3 rest : List Char) (hW : ∀ c ∈ W3, isPySpace c = true) :
    inlineClose (W3 ++ ')' :: rest) = some ([], rest) := by
  have hdw : (W3 ++ ')' :: rest).dropWhile isPySpace = ')' :: rest :=
    dropWhile_exact isPySpace W3 (')' :: rest) hW (headNotP_cons _ _ _ isPySpace_close)
  rw [inlineClose.eq_def, hdw]
  rfl

theorem inlineClose_cons_none (x : Char) (X : List Char)
    (hx2 : x ≠ ')') (hx3 : isPySpace x = false) :
    inlineClose (x :: X) = none := by
  rw [inlineClose.eq_def, List.dropWhile_cons, if_neg (by simp [hx3])]
  split
  · rename_i ds4 hcons
    injection hcons with h1 _
    exact absurd h1 hx2
  · rfl

theorem restInline_anchor (S W3 rest : List Char) (hS0 : S ≠ [])
    (hS : ∀ c ∈ S, c ≠ ')' ∧ isPySpace c = false)
    (hW : ∀ c ∈ W3, isPySpace c = true) :
    restInline ('#' :: (S ++ (W3 ++ ')' :: rest))) = some ('#' :: S, rest) := by
  rw [restInline.eq_def, inlineAnchor_anchor S W3 rest hS0 hS hW]

theorem restInline_plain (W3 rest : List Char) (hW : ∀ c ∈ W3, isPySpace c = true) :
    restInline (W3 ++ ')' :: rest) = some ([], rest) := by
  have han : inlineAnchor (W3 ++ ')' :: rest) = none := by
    cases W3 with
    | nil => exact inlineAnchor_cons_none ')' rest (by decide)
    | cons w W3' =>
      rw [List.cons_append]
      exact inlineAnchor_cons_none w _ (ws_ne_of w '#' (hW w (by simp)) isPySpace_hash)
  rw [restInline.eq_def, han]
  exact inlineClose_plain W3 rest hW

theorem restInline_cons_none (x : Char) (X : List Char)
    (hx1 : x ≠ '#') (hx2 : x ≠ ')') (hx3 : isPySpace x = false) :
    restInline (x :: X) = none := by
  rw [restInline.eq_def, inlineAnchor_cons_none x X hx1]
  exact inlineClose_cons_none x X hx2 hx3

/-- The continuation of the inline rule after the path's first character:
on `X1 ++ A ++ W3 ++ ')' :: rest` with `X1` legal path-tail characters,
`A` a legal anchor and `W3` whitespace, the lazy tail captures exactly
`X1` and the anchor group exactly `A`. -/
theorem tryTail_eq : ∀ (X1 A W3 rest : List Char),
    (∀ c ∈ X1, c ≠ ')' ∧ c ≠ '#' ∧ isPySpace c = false) →
    AnchorOk A →
    (∀ c ∈ W3, isPySpace c = true) →
    tryTail (X1 ++ (A ++ (W3 ++ ')' :: rest))) = some (X1, A, rest)
  | [], A, W3, rest, _, hA, hW => by
    rw [List.nil_append]
    rcases hA with rfl | ⟨S, rfl, hS0, hS⟩
    · rw [List.nil_append]
      cases W3 with
      | nil =>
        rw [List.nil_append]
        have h : restInline (')' :: rest) = some ([], rest) := restInline_plain [] rest (by simp)
        simp only [tryTail]
        rw [h]
      | cons w W3' =>
        rw [List.cons_append]
        have h : restInline (w :: (W3' ++ ')' :: rest)) = some ([], rest) :=
          restInline_plain (w :: W3') rest hW
        simp only [tryTail]
        rw [h]
    · have h : restInline ('#' :: (S ++ (W3 ++ ')' :: rest))) = some ('#' :: S, rest) :=
        restInline_anchor S W3 rest hS0 hS hW
      rw [List.cons_append]
      simp only [tryTail]
      rw [h]
  | x :: X1, A, W3, rest, hX, hA, hW => by
    have hx := hX x (by simp)
    have hni : restInline (x :: (X1 ++ (A ++ (W3 ++ ')' :: rest)))) = none :=
      restInline_cons_none x _ hx.2.1 hx.1 hx.2.2
    have ih := tryTail_eq X1 A W3 rest (fun c hc => hX c (by simp [hc])) hA hW
    rw [List.cons_append]
    simp only [tryTail]
    rw [hni, if_pos ⟨hx.1, hx.2.1⟩, ih]

theorem headNotP_segs (segs : List Bool) (T : List Char) (hs : segs ≠ []) :
    headNotP isPySpace (segsJoin segs ++ T) := by
  cases segs with
  | nil => exact absurd rfl hs
  | cons b ss => cases b <;> exact (by decide : isPySpace '.' = false)

/-- `LINK_INLINE_RE` on a well-formed inline link: the label, path and
anchor are captured exactly, the whitespace and every `../` / `./`
segment of the prefix are consumed, and the match ends at the closing
parenthesis. -/
theorem matchInlineAt_link
    (L W1 W2 : List Char) (x0 : Char) (X1 A W3 rest : List Char) (segs : List Bool)
    (hL0 : L ≠ []) (hL : ∀ c ∈ L, c ≠ ']')
    (hs : segs ≠ [])
    (hW1 : ∀ c ∈ W1, isPySpace c = true)
    (hW2 : ∀ c ∈ W2, isPySpace c = true)
    (hW3 : ∀ c ∈ W3, isPySpace c = true)
    (hx0 : x0 ≠ ')' ∧ x0 ≠ '#' ∧ isPySpace x0 = false)
    (hX1 : ∀ c ∈ X1, c ≠ ')' ∧ c ≠ '#' ∧ isPySpace c = false)
    (hA : AnchorOk A)
    (hT : startsSeg (W2 ++ x0 :: (X1 ++ (A ++ (W3 ++ ')' :: rest)))) = false) :
    matchInlineAt
        ('[' :: (L ++ ']' :: '(' ::
          (W1 ++ (segsJoin segs ++ (W2 ++ x0 :: (X1 ++ (A ++ (W3 ++ ')' :: rest))))))))
      = some (L, x0 :: X1, A, rest) := by
  have hlab : (L ++ ']' :: '(' ::
      (W1 ++ (segsJoin segs ++ (W2 ++ x0 :: (X1 ++ (A ++ (W3 ++ ')' :: rest))))))).takeWhile
        (· ≠ ']') = L := by
    refine takeWhile_exact _ L _ (fun x hx => by simp [hL x hx]) ?_
    exact headNotP_cons _ _ _ (by simp)
  have hdwZ : (W1 ++ (segsJoin segs ++ (W2 ++ x0 :: (X1 ++ (A ++ (W3 ++ ')' :: rest)))))).dropWhile
      isPySpace = segsJoin segs ++ (W2 ++ x0 :: (X1 ++ (A ++ (W3 ++ ')' :: rest)))) :=
    dropWhile_exact _ W1 _ hW1 (headNotP_segs segs _ hs)
  obtain ⟨l, hpre⟩ := prefixAlts_join segs (W2 ++ x0 :: (X1 ++ (A ++ (W3 ++ ')' :: rest)))) hs hT
  have hdwT : (W2 ++ x0 :: (X1 ++ (A ++ (W3 ++ ')' :: rest)))).dropWhile isPySpace
      = x0 :: (X1 ++ (A ++ (W3 ++ ')' :: rest))) :=
    dropWhile_exact _ W2 _ hW2 (headNotP_cons _ _ _ hx0.2.2)
  have htt := tryTail_eq X1 A W3 rest hX1 hA hW3
  simp only [matchInlineAt]
  rw [hlab, if_neg hL0, List.drop_left]
  simp only [tryPrefixCands, hdwZ, hpre, hdwT]
  rw [if_pos hx0, htt]

theorem headNotP_of_all (p : Char → Bool) (X : List Char) (h : ∀ c ∈ X, p c = false) :
    headNotP p X := by
  cases X with
  | nil => trivial
  | cons c cs => exact h c (by simp)

theorem pyStrip_eq (X : List Char) (hX : ∀ c ∈ X, isPySpace c = false) : pyStrip X = X := by
  have h1 : X.dropWhile isPySpace = X := dropWhile_eq_self _ X (headNotP_of_all _ X hX)
  have h2 : X.reverse.dropWhile isPySpace = X.reverse :=
    dropWhile_eq_self _ X.reverse
      (headNotP_of_all _ X.reverse (fun c hc => hX c (List.mem_reverse.mp hc)))
  rw [pyStrip, h1, h2, List.reverse_reverse]

theorem inlineRunAux_nil : ∀ fuel, inlineRunAux fuel [] = ([], 0)
  | 0 => rfl
  | _ + 1 => rfl

theorem refRunAux_nil : ∀ fuel b, refRunAux fuel b [] = ([], 0)
  | 0, _ => rfl
  | _ + 1, _ => rfl

/-- The inline rule applied to a document that is exactly one well-formed
inline link: one replacement, and the output is the link with the prefix
segments and surrounding whitespace stripped. -/
theorem inlineSubn_link
    (L W1 W2 : List Char) (x0 : Char) (X1 A W3 : List Char) (segs : List Bool)
    (hL0 : L ≠ []) (hL : ∀ c ∈ L, c ≠ ']')
    (hs : segs ≠ [])
    (hW1 : ∀ c ∈ W1, isPySpace c = true)
    (hW2 : ∀ c ∈ W2, isPySpace c = true)
    (hW3 : ∀ c ∈ W3, isPySpace c = true)
    (hx0 : x0 ≠ ')' ∧ x0 ≠ '#' ∧ isPySpace x0 = false)
    (hX1 : ∀ c ∈ X1, c ≠ ')' ∧ c ≠ '#' ∧ isPySpace c = false)
    (hA : AnchorOk A)
    (hT : startsSeg (W2 ++ x0 :: (X1 ++ (A ++ (W3 ++ [')'])))) = false) :
    inlineSubn
        ('[' :: (L ++ ']' :: '(' ::
          (W1 ++ (segsJoin segs ++ (W2 ++ x0 :: (X1 ++ (A ++ (W3 ++ [')']))))))))
      = ('[' :: (L ++ ']' :: '(' :: (x0 :: (X1 ++ (A ++ [')'])))), 1) := by
  have hm := matchInlineAt_link L W1 W2 x0 X1 A W3 [] segs hL0 hL hs hW1 hW2 hW3 hx0 hX1 hA hT
  have hstrip : pyStrip (x0 :: X1) = x0 :: X1 :=
    pyStrip_eq _ (fun c hc => by
      rcases List.mem_cons.mp hc with rfl | hc2
      · exact hx0.2.2
      · exact (hX1 c hc2).2.2)
  simp only [inlineSubn, List.length_cons, inlineRunAux, hm, inlineRunAux_nil]
  simp [replaceInline, hstrip]

/-! ### The reference rule on a well-formed definition line -/

theorem consumeEnd_ws (W : List Char) (hW : ∀ c ∈ W, isPySpace c = true) :
    consumeEnd W = some (W, []) := by
  induction W with
  | nil => rfl
  | cons c cs ih =>
    simp [consumeEnd, hW c (by simp), ih (fun x hx => hW x (by simp [hx]))]

theorem tryTitle_ws_none (W : List Char) (hW : ∀ c ∈ W, isPySpace c = true) :
    tryTitle W = none := by
  cases W with
  | nil => rfl
  | cons c cs =>
    have htw : (c :: cs).takeWhile isPySpace = c :: cs :=
      takeWhile_all _ _ hW
    simp only [tryTitle, htw]
    rw [if_neg (by simp), List.drop_length]

theorem titleEnd_ws (W : List Char) (hW : ∀ c ∈ W, isPySpace c = true) :
    titleEnd W = some (endsNL W, []) := by
  rw [titleEnd.eq_def, tryTitle_ws_none W hW, consumeEnd_ws W hW]

/-- The optional title group on `Wt ++ q1 :: T ++ [q2]` (whitespace, an
opening quote, a newline-free title body, a closing quote at the end of
the text): the group consumes everything. -/
theorem titleEnd_title (Wt : List Char) (q1 : Char) (T : List Char) (q2 : Char)
    (hWt0 : Wt ≠ []) (hWt : ∀ c ∈ Wt, isPySpace c = true)
    (hq1 : q1 = '"' ∨ q1 = '\'') (hq2 : q2 = '"' ∨ q2 = '\'')
    (hT0 : T ≠ []) (hT : ∀ c ∈ T, c ≠ '\n') :
    titleEnd (Wt ++ q1 :: (T ++ [q2])) = some (false, []) := by
  have hq1ws : isPySpace q1 = false := by rcases hq1 with rfl | rfl <;> decide
  have hq2nl : (q2 = '\n') = False := by
    rcases hq2 with rfl | rfl <;> simp
  have hw : (Wt ++ q1 :: (T ++ [q2])).takeWhile isPySpace = Wt :=
    takeWhile_exact _ Wt _ hWt (headNotP_cons _ _ _ hq1ws)
  have hline : (T ++ [q2]).takeWhile (· ≠ '\n') = T ++ [q2] :=
    takeWhile_all _ _ (fun x hx => by
      rcases List.mem_append.mp hx with h | h
      · simp [hT x h]
      · simp at h
        simp [h, hq2nl])
  have htb : titleBody (T ++ [q2]) = some (false, []) := by
    obtain ⟨t0, T1, rfl⟩ : ∃ t0 T1, T = t0 :: T1 := by
      cases T with
      | nil => exact absurd rfl hT0
      | cons a b => exact ⟨a, b, rfl⟩
    simp only [titleBody, hline, List.drop_length]
    have hlen : (t0 :: T1 ++ [q2]).length = T1.length + 1 + 1 := by simp
    rw [hlen]
    have hd1 : (t0 :: T1 ++ [q2]).drop (T1.length + 1 + 1) = [] := by
      rw [← hlen]
      exact List.drop_length _
    have hd2 : (t0 :: T1 ++ [q2]).drop (T1.length + 1) = [q2] :=
      List.drop_left (t0 :: T1) [q2]
    simp only [titleTry, hd1, hd2]
    rw [if_pos hq2]
    simp only [List.append_nil, consumeEnd]
    rfl
  have htry : tryTitle (Wt ++ q1 :: (T ++ [q2])) = some (false, []) := by
    simp only [tryTitle, hw]
    rw [if_neg hWt0, List.drop_left]
    show (if q1 = '"' ∨ q1 = '\'' then titleBody (T ++ [q2]) else none) = some (false, [])
    rw [if_pos hq1, htb]
  rw [titleEnd.eq_def, htry]

/-- `refRest` splits off a legal anchor and then the rest of the line,
provided the text after the anchor starts with whitespace (or ends) and
`titleEnd` consumes it entirely. -/
theorem refRest_general (A D : List Char) (nl : Bool) (hA : RefAnchorOk A)
    (hD : headNotP (fun c => !isPySpace c) D)
    (ht : titleEnd D = some (nl, [])) :
    refRest (A ++ D) = some (A, nl, []) := by
  rcases hA with rfl | ⟨S, rfl, hS0, hS⟩
  · rw [List.nil_append]
    cases D with
    | nil => rw [refRest.eq_def, ht]; rfl
    | cons d D2 =>
      have hd : isPySpace d = true := by
        have := hD
        rw [headNotP] at this
        simpa using this
      rw [refRest.eq_def]
      split
      · rename_i ds1 hcons
        injection hcons with h1 _
        exact absurd h1 (ws_ne_of d '#' hd isPySpace_hash)
      · rw [ht]
        rfl
  · rw [List.cons_append]
    have hrun : (S ++ D).takeWhile (fun c => !isPySpace c) = S := by
      refine takeWhile_exact _ S _ (fun x hx => by simp [hS x hx]) hD
    simp only [refRest, hrun]
    rw [if_neg hS0, List.drop_left, ht]

/-- `REF_LINK_RE` on a well-formed reference-definition line: leading
whitespace, label, flexible spacing after the colon, the whole prefix
run, the path and whatever legal tail `D` (anchor, title, trailing
whitespace) follows it, with the match consuming the entire text. -/
theorem matchRefAt_gen (W0 R W2 W3 : List Char) (p0 : Char) (P1 D A : List Char)
    (nl : Bool) (segs : List Bool)
    (hW0 : ∀ c ∈ W0, isPySpace c = true)
    (hR0 : R ≠ []) (hR : ∀ c ∈ R, c ≠ ']')
    (hs : segs ≠ [])
    (hW2 : ∀ c ∈ W2, isPySpace c = true)
    (hW3 : ∀ c ∈ W3, isPySpace c = true)
    (hp0 : isPySpace p0 = false ∧ p0 ≠ '#')
    (hP1 : ∀ c ∈ P1, isPySpace c = false ∧ c ≠ '#')
    (hD : headNotP (fun c => !isPySpace c && c ≠ '#') D)
    (hrest : refRest D = some (A, nl, []))
    (hT : startsSeg (W3 ++ p0 :: (P1 ++ D)) = false) :
    matchRefAt (W0 ++ '[' :: (R ++ ']' :: ':' :: (W2 ++ (segsJoin segs ++ (W3 ++ p0 :: (P1 ++ D))))))
      = some (R, p0 :: P1, A, nl, []) := by
  have hdw0 : (W0 ++ '[' :: (R ++ ']' :: ':' ::
      (W2 ++ (segsJoin segs ++ (W3 ++ p0 :: (P1 ++ D)))))).dropWhile isPySpace
      = '[' :: (R ++ ']' :: ':' :: (W2 ++ (segsJoin segs ++ (W3 ++ p0 :: (P1 ++ D))))) :=
    dropWhile_exact _ W0 _ hW0 (headNotP_cons _ _ _ (by decide))
  have hlab : (R ++ ']' :: ':' ::
      (W2 ++ (segsJoin segs ++ (W3 ++ p0 :: (P1 ++ D))))).takeWhile (· ≠ ']') = R := by
    refine takeWhile_exact _ R _ (fun x hx => by simp [hR x hx]) (headNotP_cons _ _ _ (by simp))
  have hdw2 : (W2 ++ (segsJoin segs ++ (W3 ++ p0 :: (P1 ++ D)))).dropWhile isPySpace
      = segsJoin segs ++ (W3 ++ p0 :: (P1 ++ D)) :=
    dropWhile_exact _ W2 _ hW2 (headNotP_segs segs _ hs)
  obtain ⟨l, hpre⟩ := prefixAlts_join segs (W3 ++ p0 :: (P1 ++ D)) hs hT
  have hdw3 : (W3 ++ p0 :: (P1 ++ D)).dropWhile isPySpace = p0 :: (P1 ++ D) :=
    dropWhile_exact _ W3 _ hW3 (headNotP_cons _ _ _ hp0.1)
  have hpath : (p0 :: (P1 ++ D)).takeWhile (fun c => !isPySpace c && c ≠ '#')
      = p0 :: P1 := by
    rw [List.takeWhile_cons, if_pos (by simp [hp0.1, hp0.2])]
    rw [takeWhile_exact _ P1 D (fun x hx => by simp [(hP1 x hx).1, (hP1 x hx).2]) hD]
  have hdropP : (p0 :: (P1 ++ D)).drop (p0 :: P1).length = D :=
    List.drop_left (p0 :: P1) D
  rw [matchRefAt.eq_def, hdw0]
  show (if (R ++ ']' :: ':' ::
      (W2 ++ (segsJoin segs ++ (W3 ++ p0 :: (P1 ++ D))))).takeWhile (· ≠ ']') = []
    then none else _) = _
  rw [hlab, if_neg hR0, List.drop_left]
  show refCands R (prefixAlts ((W2 ++ (segsJoin segs ++
      (W3 ++ p0 :: (P1 ++ D)))).dropWhile isPySpace)) = _
  rw [hdw2, hpre]
  simp only [refCands, hdw3, hpath, hdropP]
  rw [if_neg (by simp), hrest]

/-- One `REF_LINK_RE.subn` pass over a text that is a single matched
span: one replacement and the rebuilt definition line. -/
theorem refSubn_single (doc R path A : List Char) (nl : Bool)
    (c : Char) (ds : List Char) (hdoc : doc = c :: ds)
    (hm : matchRefAt doc = some (R, path, A, nl, [])) :
    refSubn doc = (replaceRef R path A, 1) := by
  subst hdoc
  simp only [refSubn, List.length_cons, refRunAux, if_true, hm, refRunAux_nil]
  simp

/-! ### No-match lemmas: documents of the shape `[label](target)` whose
target does not begin with a prefix segment match neither rule anywhere. -/

theorem suffix_append_cases (xs ys ds : List Char) (h : ds <:+ xs ++ ys) :
    ds <:+ ys ∨ ∃ xs2, xs2 <:+ xs ∧ xs2 ≠ [] ∧ ds = xs2 ++ ys := by
  induction xs with
  | nil => exact Or.inl (by simpa using h)
  | cons a xs ih =>
    rw [List.cons_append] at h
    rcases List.suffix_cons_iff.mp h with rfl | h2
    · exact Or.inr ⟨a :: xs, List.suffix_refl _, by simp, rfl⟩
    · rcases ih h2 with h3 | ⟨xs2, hs, hne, rfl⟩
      · exact Or.inl h3
      · exact Or.inr ⟨xs2, hs.trans (List.suffix_cons a xs), hne, rfl⟩

theorem bracket_suffix_shape (L T es : List Char) (hT : '[' ∉ T)
    (h : '[' :: es <:+ ('[' :: L) ++ (']' :: '(' :: (T ++ [')']))) :
    ∃ L2, L2 <:+ L ∧ '[' :: es = '[' :: (L2 ++ (']' :: '(' :: (T ++ [')']))) := by
  rcases suffix_append_cases ('[' :: L) (']' :: '(' :: (T ++ [')'])) _ h with
    h1 | ⟨xs2, hs, hne, heq⟩
  · exfalso
    have hmem : '[' ∈ (']' :: '(' :: (T ++ [')'])) := h1.subset (by simp)
    simp at hmem
    exact hT hmem
  · rcases List.suffix_cons_iff.mp hs with rfl | h2
    · exact ⟨L, List.suffix_refl L, heq⟩
    · cases xs2 with
      | nil => exact absurd rfl hne
      | cons c xs3 =>
        rw [List.cons_append] at heq
        injection heq with hc hes
        subst hc
        exact ⟨xs3, (List.suffix_cons '[' xs3).trans h2, by rw [hes]⟩

theorem matchInline_none_shape (L T : List Char) (hL : ']' ∉ L) (hT1 : '[' ∉ T)
    (hT2 : startsSeg ((T ++ [')']).dropWhile isPySpace) = false) :
    ∀ ds, ds <:+ ('[' :: L) ++ (']' :: '(' :: (T ++ [')'])) → matchInlineAt ds = none := by
  intro ds hds
  cases ds with
  | nil => rfl
  | cons c es =>
    by_cases hc : c = '['
    · subst hc
      obtain ⟨L2, hL2, heq⟩ := bracket_suffix_shape L T es hT1 hds
      injection heq with _ hes
      subst hes
      have hlab : (L2 ++ ']' :: '(' :: (T ++ [')'])).takeWhile (· ≠ ']') = L2 := by
        refine takeWhile_exact _ L2 _ (fun x hx => ?_) (headNotP_cons _ _ _ (by simp))
        have : x ∈ L := hL2.subset hx
        simp
        rintro rfl
        exact hL this
      simp only [matchInlineAt]
      rw [hlab]
      by_cases h0 : L2 = []
      · rw [if_pos h0]
      · rw [if_neg h0, List.drop_left]
        show tryPrefixCands L2 (prefixAlts ((T ++ [')']).dropWhile isPySpace)) = none
        rw [prefixAlts_eq_nil _ hT2]
        rfl
    · rw [matchInlineAt.eq_def]
      split
      · rename_i cs1 hcons
        injection hcons with h1 _
        exact absurd h1 hc
      · rfl

theorem matchRef_none_shape (L T : List Char) (hL : ']' ∉ L) (hT1 : '[' ∉ T) :
    ∀ ds, ds <:+ ('[' :: L) ++ (']' :: '(' :: (T ++ [')'])) → matchRefAt ds = none := by
  intro ds hds
  have hsuf : ds.dropWhile isPySpace <:+ ('[' :: L) ++ (']' :: '(' :: (T ++ [')'])) :=
    (List.dropWhile_suffix _).trans hds
  rw [matchRefAt.eq_def]
  split
  · rename_i cs1 heq
    rw [heq] at hsuf
    obtain ⟨L2, hL2, heq2⟩ := bracket_suffix_shape L T cs1 hT1 hsuf
    injection heq2 with _ hes
    subst hes
    have hlab : (L2 ++ ']' :: '(' :: (T ++ [')'])).takeWhile (· ≠ ']') = L2 := by
      refine takeWhile_exact _ L2 _ (fun x hx => ?_) (headNotP_cons _ _ _ (by simp))
      have : x ∈ L := hL2.subset hx
      simp
      rintro rfl
      exact hL this
    rw [hlab]
    by_cases h0 : L2 = []
    · rw [if_pos h0]
    · rw [if_neg h0, List.drop_left]
      rfl
  · rfl

theorem inlineRunAux_zero (cs : List Char)
    (h : ∀ ds, ds <:+ cs → matchInlineAt ds = none) :
    ∀ fuel, inlineRunAux fuel cs = (cs, 0) := by
  induction cs with
  | nil => exact inlineRunAux_nil
  | cons c rest ih =>
    intro fuel
    cases fuel with
    | zero => rfl
    | succ n =>
      simp only [inlineRunAux, h (c :: rest) (List.suffix_refl _)]
      rw [ih (fun ds hds => h ds (hds.trans (List.suffix_cons c rest))) n]

theorem refRunAux_zero (cs : List Char)
    (h : ∀ ds, ds <:+ cs → matchRefAt ds = none) :
    ∀ fuel b, refRunAux fuel b cs = (cs, 0) := by
  induction cs with
  | nil => exact refRunAux_nil
  | cons c rest ih =>
    intro fuel b
    cases fuel with
    | zero => rfl
    | succ n =>
      have hb : (if b = true then matchRefAt (c :: rest) else none) = none := by
        cases b
        · rfl
        · simpa using h (c :: rest) (List.suffix_refl _)
      simp only [refRunAux, hb]
      rw [ih (fun ds hds => h ds (hds.trans (List.suffix_cons c rest))) n]

/-- A document of the shape `[label](target)` where the target does not
begin with a `../` or `./` segment (after optional whitespace) matches
neither rule: both substitution passes return it byte-identical with a
replacement count of zero. -/
theorem rewrite_shape_zero (L T : List Char) (hL : ']' ∉ L) (hT1 : '[' ∉ T)
    (hT2 : startsSeg ((T ++ [')']).dropWhile isPySpace) = false) :
    inlineSubn (('[' :: L) ++ (']' :: '(' :: (T ++ [')'])))
        = (('[' :: L) ++ (']' :: '(' :: (T ++ [')'])), 0)
    ∧ refSubn (('[' :: L) ++ (']' :: '(' :: (T ++ [')'])))
        = (('[' :: L) ++ (']' :: '(' :: (T ++ [')'])), 0) :=
  ⟨inlineRunAux_zero _ (matchInline_none_shape L T hL hT1 hT2) _,
   refRunAux_zero _ (matchRef_none_shape L T hL hT1) _ _⟩

/-! ### Walk-level lemmas -/

theorem processFile_not_markdown (f : WikiFile) (h : isMarkdownName f.name = false) :
    processFile f = (f, 0, 0) := by
  rw [processFile, if_neg (by simp [h])]

/-! ## Claim theorems -/

/-- Claim C1: for every inline link whose target begins with one or more
ascending-relative or current-directory segments, the inline rule strips
all such prefix segments and nothing else; `[L](../../X)`, `[L](./X)`,
`[L](../X)` all rewrite to exactly `[L](X)`, and the number and kind of
the segments (the list `segs`) does not affect the output. -/
theorem c1_prefix_collapse (L : List Char) (x0 : Char) (X1 : List Char) (segs : List Bool)
    (hL0 : L ≠ []) (hL : ∀ c ∈ L, c ≠ ']') (hs : segs ≠ [])
    (hx0 : x0 ≠ ')' ∧ x0 ≠ '#' ∧ isPySpace x0 = false)
    (hX1 : ∀ c ∈ X1, c ≠ ')' ∧ c ≠ '#' ∧ isPySpace c = false)
    (hT : startsSeg (x0 :: (X1 ++ [')'])) = false) :
    inlineSubn ('[' :: (L ++ ']' :: '(' :: (segsJoin segs ++ x0 :: (X1 ++ [')']))))
      = ('[' :: (L ++ ']' :: '(' :: (x0 :: (X1 ++ [')']))), 1) :=
  inlineSubn_link L [] [] x0 X1 [] [] segs hL0 hL hs (by simp) (by simp) (by simp)
    hx0 hX1 (Or.inl rfl) hT

/-- Witness for C1 on the three concrete shapes of the claim. -/
theorem c1_prefix_collapse_witness :
    inlineSubn "[L](../../X)".toList = ("[L](X)".toList, 1)
    ∧ inlineSubn "[L](./X)".toList = ("[L](X)".toList, 1)
    ∧ inlineSubn "[L](../X)".toList = ("[L](X)".toList, 1) :=
  ⟨c1_prefix_collapse ['L'] 'X' [] [true, true] (by decide) (by decide) (by decide)
      (by decide) (by decide) (by decide),
   c1_prefix_collapse ['L'] 'X' [] [false] (by decide) (by decide) (by decide)
      (by decide) (by decide) (by decide),
   c1_prefix_collapse ['L'] 'X' [] [true] (by decide) (by decide) (by decide)
      (by decide) (by decide) (by decide)⟩

/-- Claim C2 counterexample: the combined rewrite is not idempotent.  On
the document `[L]( ../ ./x)` the first pass performs one replacement
(producing `[L](./x)`: the space stops the prefix repetition, so the
remaining `./x` is captured as the path), and the second pass still
performs a replacement instead of zero. -/
theorem c2_counterexample :
    (rewriteContent ((rewriteContent "[L]( ../ ./x)".toList).1)).2 ≠ 0 := by decide

/-- Claim C8 counterexample: the `except Exception` handler is a broad
catch-all, so a non-decoding error of the primary read (here an OS error
such as permission denied) is caught and the latin-1 retry's value is
returned instead of the error propagating from the primary read. -/
theorem c8_counterexample :
    readWikiFile ⟨Except.error PyExc.osError, Except.ok ['x']⟩ = Except.ok ['x'] := rfl

/-- Claim C8 (amended): a successful primary UTF-8 read is returned
as-is; ANY failure of the primary read — decoding or otherwise — is
caught by the broad `except Exception` handler and answered by the
latin-1 retry, so a decoding failure is recovered locally whenever the
retry succeeds, and an error surfaces only when the retry itself fails. -/
theorem c8_broad_fallback (env : ReadEnv) :
    (∀ c, env.utf8Result = Except.ok c → readWikiFile env = Except.ok c)
    ∧ (∀ e, env.utf8Result = Except.error e → readWikiFile env = env.latin1Result) := by
  constructor <;> intro x h <;> simp [readWikiFile, h]

/-- Witness for the amended C8: a decoding failure recovered by the
fallback read. -/
theorem c8_broad_fallback_witness :
    readWikiFile ⟨Except.error PyExc.unicodeDecodeError, Except.ok ['a']⟩ = Except.ok ['a'] :=
  (c8_broad_fallback ⟨Except.error PyExc.unicodeDecodeError, Except.ok ['a']⟩).2
    PyExc.unicodeDecodeError rfl

/-- Claim C9: with fewer than the two required positional arguments
(`len(sys.argv) < 3`) the program prints usage and exits with status 1;
with both present it proceeds, the third user argument being the
optional credential (`sys.argv[3]` when given, absent otherwise). -/
theorem c9_cli_arguments (argv : List String) :
    (argv.length < 3 →
      mainEntry argv = MainAction.usage ∧ exitCodeOf (mainEntry argv) = some 1)
    ∧ (∀ p s d r, argv = p :: s :: d :: r →
      mainEntry argv = MainAction.run s d r.head? ∧ exitCodeOf (mainEntry argv) = none) := by
  constructor
  · intro h
    rw [mainEntry, if_pos h]
    exact ⟨rfl, rfl⟩
  · rintro p s d r rfl
    have h3 : ¬(p :: s :: d :: r : List String).length < 3 := by
      simp [List.length_cons]
    rw [mainEntry, if_neg h3]
    refine ⟨?_, rfl⟩
    cases r <;> rfl

/-- Witness for C9: a one-argument call exits with usage, a full call
runs with the token. -/
theorem c9_cli_arguments_witness :
    mainEntry ["mirror"] = MainAction.usage
    ∧ exitCodeOf (mainEntry ["mirror"]) = some 1
    ∧ mainEntry ["mirror", "src", "dst", "tok"]
        = MainAction.run "src" "dst" (some "tok") := by
  obtain ⟨h1, h2⟩ := (c9_cli_arguments ["mirror"]).1 (by decide)
  obtain ⟨h3, -⟩ :=
    (c9_cli_arguments ["mirror", "src", "dst", "tok"]).2 "mirror" "src" "dst" ["tok"] rfl
  exact ⟨h1, h2, h3⟩

/-- Claim C3: a visited markdown file is overwritten exactly when the
combined replacement count of the two rules on its content is positive;
each written file adds one to the changed-file counter and its count to
the replacement counter, and the returned report is (number of files
with at least one match, sum of per-file match counts). -/
theorem c3_selective_write (files : List WikiFile) :
    convert_gitlab_wiki_links_in_dir files
      = (files.map (fun f =>
            if isMarkdownName f.name = true ∧ 0 < (rewriteContent f.content).2
            then { f with content := (rewriteContent f.content).1 } else f),
         (files.filter (fun f =>
            isMarkdownName f.name && decide (0 < (rewriteContent f.content).2))).length,
         (files.map (fun f =>
            if isMarkdownName f.name then (rewriteContent f.content).2 else 0)).sum) := by
  induction files with
  | nil => rfl
  | cons f fs ih =>
    simp only [convert_gitlab_wiki_links_in_dir, ih]
    by_cases hm : isMarkdownName f.name
    · by_cases hn : 0 < (rewriteContent f.content).2
      · simp [processFile, hm, hn, List.filter_cons, Nat.add_comm]
      · have h0 : (rewriteContent f.content).2 = 0 := Nat.eq_zero_of_not_pos hn
        simp [processFile, hm, hn, List.filter_cons, h0]
    · simp [processFile, hm, List.filter_cons]

/-- Claim C7: a file whose name does not end (case-insensitively) in a
markdown-family extension is left untouched in place and contributes
nothing to either counter, whatever its content. -/
theorem c7_extension_filter (xs ys : List WikiFile) (f : WikiFile)
    (h : isMarkdownName f.name = false) :
    convert_gitlab_wiki_links_in_dir (xs ++ f :: ys)
      = ((convert_gitlab_wiki_links_in_dir xs).1 ++ f :: (convert_gitlab_wiki_links_in_dir ys).1,
         (convert_gitlab_wiki_links_in_dir xs).2.1 + (convert_gitlab_wiki_links_in_dir ys).2.1,
         (convert_gitlab_wiki_links_in_dir xs).2.2 + (convert_gitlab_wiki_links_in_dir ys).2.2) := by
  induction xs with
  | nil =>
    simp only [List.nil_append, convert_gitlab_wiki_links_in_dir,
      processFile_not_markdown f h]
  | cons g xs ih =>
    rw [List.cons_append]
    simp only [convert_gitlab_wiki_links_in_dir]
    rw [ih]
    simp [Nat.add_assoc]

/-- Claim C6: inline links whose target does not begin with a `../` or
`./` segment — absolute URLs, absolute paths — are matched by neither
rule, and the document containing them is returned byte-identical with
zero replacements by both passes. -/
theorem c6_non_match_passthrough (L T : List Char)
    (hL : ']' ∉ L) (hT1 : '[' ∉ T)
    (hT2 : startsSeg ((T ++ [')']).dropWhile isPySpace) = false) :
    inlineSubn (('[' :: L) ++ (']' :: '(' :: (T ++ [')'])))
        = (('[' :: L) ++ (']' :: '(' :: (T ++ [')'])), 0)
    ∧ refSubn (('[' :: L) ++ (']' :: '(' :: (T ++ [')'])))
        = (('[' :: L) ++ (']' :: '(' :: (T ++ [')'])), 0) :=
  rewrite_shape_zero L T hL hT1 hT2

/-- Witness for C6 on the two concrete documents of the claim. -/
theorem c6_non_match_passthrough_witness :
    inlineSubn "[L](https://example.com/x)".toList = ("[L](https://example.com/x)".toList, 0)
    ∧ refSubn "[L](https://example.com/x)".toList = ("[L](https://example.com/x)".toList, 0)
    ∧ inlineSubn "[L](/absolute/x)".toList = ("[L](/absolute/x)".toList, 0)
    ∧ refSubn "[L](/absolute/x)".toList = ("[L](/absolute/x)".toList, 0) := by
  obtain ⟨h1, h2⟩ := c6_non_match_passthrough ['L'] "https://example.com/x".toList
    (by decide) (by decide) (by decide)
  obtain ⟨h3, h4⟩ := c6_non_match_passthrough ['L'] "/absolute/x".toList
    (by decide) (by decide) (by decide)
  exact ⟨h1, h2, h3, h4⟩

/-- Claim C2 (amended): the combined rewrite is not idempotent on all
documents (see the counterexample `[L]( ../ ./x)`); it is idempotent on
single-link documents in the tested shape: for `[L](prefix X)` with `X`
free of `)`, `#`, `[` and whitespace and not itself beginning with a
prefix segment, the first pass yields `[L](X)` with one replacement and
a second combined pass performs zero replacements. -/
theorem c2_second_pass_zero (L : List Char) (x0 : Char) (X1 : List Char) (segs : List Bool)
    (hL0 : L ≠ []) (hL : ∀ c ∈ L, c ≠ ']') (hs : segs ≠ [])
    (hx0 : x0 ≠ ')' ∧ x0 ≠ '#' ∧ isPySpace x0 = false) (hx0b : x0 ≠ '[')
    (hX1 : ∀ c ∈ X1, c ≠ ')' ∧ c ≠ '#' ∧ isPySpace c = false) (hX1b : '[' ∉ X1)
    (hT : startsSeg (x0 :: (X1 ++ [')'])) = false) :
    rewriteContent ('[' :: (L ++ ']' :: '(' :: (segsJoin segs ++ x0 :: (X1 ++ [')']))))
      = ('[' :: (L ++ ']' :: '(' :: (x0 :: (X1 ++ [')']))), 1)
    ∧ (rewriteContent ('[' :: (L ++ ']' :: '(' :: (x0 :: (X1 ++ [')']))))).2 = 0 := by
  have hLnotin : ']' ∉ L := fun hmem => hL ']' hmem rfl
  have hTnotin : '[' ∉ (x0 :: X1) := by
    intro hmem
    rcases List.mem_cons.mp hmem with h | h
    · exact hx0b h.symm
    · exact hX1b h
  have hdw : ((x0 :: X1 ++ [')']).dropWhile isPySpace) = x0 :: (X1 ++ [')']) := by
    rw [List.cons_append, List.dropWhile_cons, if_neg (by simp [hx0.2.2])]
  have hz := rewrite_shape_zero L (x0 :: X1) hLnotin hTnotin (by rw [hdw]; exact hT)
  have hz1 : inlineSubn ('[' :: (L ++ ']' :: '(' :: (x0 :: (X1 ++ [')']))))
      = ('[' :: (L ++ ']' :: '(' :: (x0 :: (X1 ++ [')']))), 0) := hz.1
  have hz2 : refSubn ('[' :: (L ++ ']' :: '(' :: (x0 :: (X1 ++ [')']))))
      = ('[' :: (L ++ ']' :: '(' :: (x0 :: (X1 ++ [')']))), 0) := hz.2
  have hil : inlineSubn ('[' :: (L ++ ']' :: '(' :: (segsJoin segs ++ x0 :: (X1 ++ [')']))))
      = ('[' :: (L ++ ']' :: '(' :: (x0 :: (X1 ++ [')']))), 1) :=
    inlineSubn_link L [] [] x0 X1 [] [] segs hL0 hL hs (by simp) (by simp) (by simp)
      hx0 hX1 (Or.inl rfl) hT
  constructor
  · simp only [rewriteContent, hil, hz2]
  · simp only [rewriteContent, hz1, hz2]

/-- Witness for the amended C2: one flattening pass then a stable second
pass on a concrete link. -/
theorem c2_second_pass_zero_witness :
    rewriteContent "[L](../X)".toList = ("[L](X)".toList, 1)
    ∧ (rewriteContent "[L](X)".toList).2 = 0 :=
  c2_second_pass_zero ['L'] 'X' [] [true] (by decide) (by decide) (by decide)
    (by decide) (by decide) (by decide) (by decide) (by decide)

/-- Claim C4: anchors are preserved verbatim by both rules:
`[L](../Page#section)` rewrites to `[L](Page#section)` and the line
`[Ref]: ../Page#section` rewrites to `[Ref]: Page#section`. -/
theorem c4_anchor_preservation (L R : List Char) (p0 : Char) (P1 S : List Char)
    (hL0 : L ≠ []) (hL : ∀ c ∈ L, c ≠ ']')
    (hR0 : R ≠ []) (hR : ∀ c ∈ R, c ≠ ']')
    (hp0 : p0 ≠ ')' ∧ p0 ≠ '#' ∧ isPySpace p0 = false)
    (hP1 : ∀ c ∈ P1, c ≠ ')' ∧ c ≠ '#' ∧ isPySpace c = false)
    (hS0 : S ≠ []) (hS : ∀ c ∈ S, c ≠ ')' ∧ isPySpace c = false)
    (hT1 : startsSeg (p0 :: (P1 ++ ('#' :: (S ++ [')'])))) = false)
    (hT2 : startsSeg (p0 :: (P1 ++ '#' :: S)) = false) :
    inlineSubn ('[' :: (L ++ ']' :: '(' ::
        ('.' :: '.' :: '/' :: p0 :: (P1 ++ ('#' :: (S ++ [')']))))))
      = ('[' :: (L ++ ']' :: '(' :: (p0 :: (P1 ++ ('#' :: (S ++ [')']))))), 1)
    ∧ refSubn ('[' :: (R ++ ']' :: ':' :: ' ' ::
        ('.' :: '.' :: '/' :: p0 :: (P1 ++ '#' :: S))))
      = ('[' :: (R ++ ']' :: ':' :: ' ' :: (p0 :: (P1 ++ '#' :: S))), 1) := by
  constructor
  · exact inlineSubn_link L [] [] p0 P1 ('#' :: S) [] [true] hL0 hL (by simp)
      (by simp) (by simp) (by simp) hp0 hP1
      (Or.inr ⟨S, rfl, hS0, fun c hc => (hS c hc)⟩) hT1
  · have hSr : ∀ c ∈ S, isPySpace c = false := fun c hc => (hS c hc).2
    have hrest : refRest ('#' :: S) = some ('#' :: S, false, []) := by
      have h := refRest_general ('#' :: S) [] false
        (Or.inr ⟨S, rfl, hS0, hSr⟩) trivial (titleEnd_ws [] (by simp))
      rw [List.append_nil] at h
      exact h
    have hm := matchRefAt_gen [] R [' '] [] p0 P1 ('#' :: S) ('#' :: S) false [true]
      (by simp) hR0 hR (by simp) (by decide) (by simp)
      ⟨hp0.2.2, hp0.2.1⟩ (fun c hc => ⟨(hP1 c hc).2.2, (hP1 c hc).2.1⟩)
      (headNotP_cons _ _ _ (by decide)) hrest hT2
    have hst : pyStrip (p0 :: P1) = p0 :: P1 :=
      pyStrip_eq _ (fun c hc => by
        rcases List.mem_cons.mp hc with rfl | hc2
        · exact hp0.2.2
        · exact (hP1 c hc2).2.2)
    have h2 := refSubn_single
      ('[' :: (R ++ ']' :: ':' :: ' ' :: ('.' :: '.' :: '/' :: p0 :: (P1 ++ '#' :: S))))
      R (p0 :: P1) ('#' :: S) false
      '[' (R ++ ']' :: ':' :: ' ' :: ('.' :: '.' :: '/' :: p0 :: (P1 ++ '#' :: S))) rfl hm
    rw [h2, replaceRef, hst]
    rfl

/-- Witness for C4 on the concrete documents of the claim. -/
theorem c4_anchor_preservation_witness :
    inlineSubn "[L](../Page#section)".toList = ("[L](Page#section)".toList, 1)
    ∧ refSubn "[Ref]: ../Page#section".toList = ("[Ref]: Page#section".toList, 1) := by
  obtain ⟨h1, h2⟩ := c4_anchor_preservation ['L'] "Ref".toList 'P' "age".toList
    "section".toList (by decide) (by decide) (by decide) (by decide) (by decide)
    (by decide) (by decide) (by decide) (by decide) (by decide)
  exact ⟨h1, h2⟩

/-- Claim C5: the reference rule drops a trailing quoted title; in
particular `[Ref]: ../Page "Some Title"` rewrites to `[Ref]: Page`
(either quote character, any newline-free nonempty title body). -/
theorem c5_title_dropping (R : List Char) (p0 : Char) (P1 T : List Char) (q1 q2 : Char)
    (hR0 : R ≠ []) (hR : ∀ c ∈ R, c ≠ ']')
    (hp0 : isPySpace p0 = false ∧ p0 ≠ '#')
    (hP1 : ∀ c ∈ P1, isPySpace c = false ∧ c ≠ '#')
    (hq1 : q1 = '"' ∨ q1 = '\'') (hq2 : q2 = '"' ∨ q2 = '\'')
    (hT0 : T ≠ []) (hTn : ∀ c ∈ T, c ≠ '\n')
    (hT2 : startsSeg (p0 :: (P1 ++ ' ' :: q1 :: (T ++ [q2]))) = false) :
    refSubn ('[' :: (R ++ ']' :: ':' :: ' ' ::
        ('.' :: '.' :: '/' :: p0 :: (P1 ++ ' ' :: q1 :: (T ++ [q2])))))
      = ('[' :: (R ++ ']' :: ':' :: ' ' :: (p0 :: P1)), 1) := by
  have htt : titleEnd (' ' :: (q1 :: (T ++ [q2]))) = some (false, []) :=
    titleEnd_title [' '] q1 T q2 (by simp) (by decide) hq1 hq2 hT0 hTn
  have hrest : refRest (' ' :: (q1 :: (T ++ [q2]))) = some ([], false, []) := by
    have h := refRest_general [] (' ' :: (q1 :: (T ++ [q2]))) false (Or.inl rfl)
      (headNotP_cons _ _ _ (by decide)) htt
    rw [List.nil_append] at h
    exact h
  have hm := matchRefAt_gen [] R [' '] [] p0 P1 (' ' :: (q1 :: (T ++ [q2]))) [] false [true]
    (by simp) hR0 hR (by simp) (by decide) (by simp) hp0 hP1
    (headNotP_cons _ _ _ (by decide)) hrest hT2
  have hst : pyStrip (p0 :: P1) = p0 :: P1 :=
    pyStrip_eq _ (fun c hc => by
      rcases List.mem_cons.mp hc with rfl | hc2
      · exact hp0.1
      · exact (hP1 c hc2).1)
  have h2 := refSubn_single
    ('[' :: (R ++ ']' :: ':' :: ' ' ::
      ('.' :: '.' :: '/' :: p0 :: (P1 ++ ' ' :: q1 :: (T ++ [q2])))))
    R (p0 :: P1) [] false
    '[' (R ++ ']' :: ':' :: ' ' ::
      ('.' :: '.' :: '/' :: p0 :: (P1 ++ ' ' :: q1 :: (T ++ [q2])))) rfl hm
  rw [h2, replaceRef, hst, List.append_nil]

/-- Witness for C5 on the concrete document of the claim. -/
theorem c5_title_dropping_witness :
    refSubn "[Ref]: ../Page \"Some Title\"".toList = ("[Ref]: Page".toList, 1) :=
  c5_title_dropping "Ref".toList 'P' "age".toList "Some Title".toList '"' '"'
    (by decide) (by decide) (by decide) (by decide) (by decide) (by decide)
    (by decide) (by decide) (by decide)

/-- Claim C10: the reference rule normalizes the matched line's layout:
leading whitespace before `[label]:` is removed, exactly one space is
emitted after the colon regardless of the original spacing, trailing
whitespace is dropped, and the rewritten line is exactly
`[label]: path` followed by the anchor when present. -/
theorem c10_ref_line_normalization (W0 R W2 : List Char) (p0 : Char)
    (P1 A W4 : List Char) (segs : List Bool)
    (hW0 : ∀ c ∈ W0, isPySpace c = true)
    (hR0 : R ≠ []) (hR : ∀ c ∈ R, c ≠ ']')
    (hs : segs ≠ [])
    (hW2 : ∀ c ∈ W2, isPySpace c = true)
    (hp0 : isPySpace p0 = false ∧ p0 ≠ '#')
    (hP1 : ∀ c ∈ P1, isPySpace c = false ∧ c ≠ '#')
    (hA : RefAnchorOk A)
    (hW4 : ∀ c ∈ W4, isPySpace c = true)
    (hT : startsSeg (p0 :: (P1 ++ (A ++ W4))) = false) :
    refSubn (W0 ++ '[' :: (R ++ ']' :: ':' ::
        (W2 ++ (segsJoin segs ++ p0 :: (P1 ++ (A ++ W4))))))
      = ('[' :: (R ++ ']' :: ':' :: ' ' :: (p0 :: (P1 ++ A))), 1) := by
  have hDstop : headNotP (fun c => !isPySpace c && c ≠ '#') (A ++ W4) := by
    rcases hA with rfl | ⟨S, rfl, hS0, hS⟩
    · rw [List.nil_append]
      exact headNotP_of_all _ W4 (fun c hc => by simp [hW4 c hc])
    · exact headNotP_cons _ _ _ (by decide)
  have hrest : refRest (A ++ W4) = some (A, endsNL W4, []) := by
    refine refRest_general A W4 (endsNL W4) hA ?_ (titleEnd_ws W4 hW4)
    exact headNotP_of_all _ W4 (fun c hc => by simp [hW4 c hc])
  have hm := matchRefAt_gen W0 R W2 [] p0 P1 (A ++ W4) A (endsNL W4) segs
    hW0 hR0 hR hs hW2 (by simp) hp0 hP1 hDstop hrest hT
  have hst : pyStrip (p0 :: P1) = p0 :: P1 :=
    pyStrip_eq _ (fun c hc => by
      rcases List.mem_cons.mp hc with rfl | hc2
      · exact hp0.1
      · exact (hP1 c hc2).1)
  obtain ⟨c, ds, hcd⟩ : ∃ c ds,
      W0 ++ '[' :: (R ++ ']' :: ':' ::
        (W2 ++ (segsJoin segs ++ p0 :: (P1 ++ (A ++ W4))))) = c :: ds := by
    cases W0 with
    | nil => exact ⟨'[', _, rfl⟩
    | cons w W0b => exact ⟨w, _, rfl⟩
  have h2 := refSubn_single _ R (p0 :: P1) A (endsNL W4) c ds hcd hm
  rw [h2, replaceRef, hst]
  rfl

/-- Witness for C10: leading whitespace, double spacing after the colon
and trailing whitespace all normalized. -/
theorem c10_ref_line_normalization_witness :
    refSubn "  [Ref]:  ../Page#sec  ".toList = ("[Ref]: Page#sec".toList, 1) :=
  c10_ref_line_normalization [' ', ' '] "Ref".toList [' ', ' '] 'P' "age".toList
    ('#' :: "sec".toList) [' ', ' '] [true] (by decide) (by decide) (by decide)
    (by decide) (by decide) (by decide) (by decide)
    (Or.inr ⟨"sec".toList, rfl, by decide, by decide⟩) (by decide) (by decide)

/-- Witness for C7: a `.txt` file containing a qualifying link pattern is
not rewritten and not counted. -/
theorem c7_extension_filter_witness :
    convert_gitlab_wiki_links_in_dir [⟨"notes.txt".toList, "[L](../x)".toList⟩]
      = ([⟨"notes.txt".toList, "[L](../x)".toList⟩], 0, 0) :=
  c7_extension_filter [] [] ⟨"notes.txt".toList, "[L](../x)".toList⟩ (by decide)

end MirrorWiki
